import Mathlib

/-!
Verification of the moose MPC execution core against its specification.

The development shallowly embeds the relevant parts of the source:

* Host ring kernels (`src/moose/src/host/ops.rs`) operate elementwise on
  fixed-width wrapping integer tensors (`Wrapping<u64>` / `Wrapping<u128>`).
  A tensor is embedded as the flat list of its elements, each element a
  `Nat` below `2 ^ w`; reinterpretation as a signed two's-complement value
  (`item as i64` / `item as i128` in the source) is `toSigned`.
* The gRPC choreography endpoints (`src/moose/src/choreography/grpc.rs`)
  are embedded as pure state transformers over the session-id to
  result-cell map; the outcomes of the external collaborators (bincode
  deserialization, `execute_computation`) are inputs of the transformer.
* The symbolic session (`src/moose/src/execution/symbolic.rs`) is embedded
  with explicit state passing of `SymbolicSessionState`.
* The fixed-point encode/decode kernels compute in `f64`; the embedding
  represents each `f64` value by the exact rational it denotes and models
  every rounding `f64` operation explicitly through `fl` (correct rounding
  to 53 significant bits, round to nearest, ties to even), and the
  float-to-integer cast (`as i128`) as truncation toward zero with
  saturation.
-/

namespace Moose

/-! Two's-complement ring core. -/

/-- Reduce an integer into the ring of width `w`, i.e. the value of a
wrapping arithmetic result, as the source's `Wrapping<uN>` does. -/
def ringWrap (w : Nat) (n : Int) : Nat :=
  (n % ((2 : Int) ^ w)).toNat

/-- Reinterpret a ring element as a signed two's-complement integer; the
embedding of the source casts `item as i64` / `item as i128`. -/
def toSigned (w : Nat) (x : Nat) : Int :=
  if x < 2 ^ (w - 1) then (x : Int) else (x : Int) - (2 : Int) ^ w

/-- Wrapping subtraction `x - y` of two ring elements (`Wrapping` sub). -/
def ringSubElem (w x y : Nat) : Nat :=
  ringWrap w ((x : Int) - (y : Int))

/-- Elementwise kernel of `LessOp::host_ring64_kernel` and
`LessOp::host_ring128_kernel`: `(x.0 - y.0).mapv(|item| if (item as iN) < 0 { 1 } else { 0 })`. -/
def lessElem (w x y : Nat) : Nat :=
  if toSigned w (ringSubElem w x y) < 0 then 1 else 0

/-- `LessOp` host ring kernel on (flattened) tensors. -/
def lessKernel (w : Nat) (xs ys : List Nat) : List Nat :=
  List.zipWith (lessElem w) xs ys

/-- Elementwise kernel of `SignOp::ring64_kernel` / `ring128_kernel`:
negative elements map to the bit-identical `-1`, others to `1`. -/
def signElem (w x : Nat) : Nat :=
  if toSigned w x < 0 then ringWrap w (-1) else 1

/-- `SignOp` host ring kernel on (flattened) tensors. -/
def signKernel (w : Nat) (xs : List Nat) : List Nat :=
  xs.map (signElem w)

/-- `HostBitDecOp::bit64_kernel` / `bit128_kernel`: stack, along a fresh
leading axis, the `w` views `(&x.0 >> i) & ones` for `i = 0, .., w-1`. -/
def bitDecompose (w : Nat) (xs : List Nat) : List (List Nat) :=
  (List.range w).map (fun i => xs.map (fun a => (a >>> i) &&& 1))

/-- `BitExtractOp::kernel64` / `kernel128`:
`(x >> bit_idx).0.mapv(|ai| (ai.0 & 1) as u8)`. -/
def bitExtract (i : Nat) (xs : List Nat) : List Nat :=
  xs.map (fun a => (a >>> i) &&& 1)

/-- `RingInjectOp::host_kernel`: widen each bit into the ring and shift it
left by `bit_idx` (`Wrapping(T::from(ai)) << bit_idx`, a wrapping shift). -/
def ringInject (w i : Nat) (bs : List Nat) : List Nat :=
  bs.map (fun b => (b <<< i) % 2 ^ w)

/-! Arithmetic facts about the ring core. -/

theorem two_pow_pos (w : Nat) : (0 : Int) < (2 : Int) ^ w := by positivity

theorem natCast_two_pow (w : Nat) : (((2 : Nat) ^ w : Nat) : Int) = (2 : Int) ^ w := by
  push_cast
  ring

theorem ringWrap_lt (w : Nat) (n : Int) : ringWrap w n < 2 ^ w := by
  unfold ringWrap
  have h := Int.emod_lt_of_pos n (two_pow_pos w)
  have h0 := Int.emod_nonneg n (ne_of_gt (two_pow_pos w))
  have hc := natCast_two_pow w
  omega

theorem ringWrap_cast (w : Nat) (n : Int) :
    ((ringWrap w n : Nat) : Int) = n % (2 : Int) ^ w := by
  unfold ringWrap
  exact Int.toNat_of_nonneg (Int.emod_nonneg n (ne_of_gt (two_pow_pos w)))

theorem toSigned_emod (w : Nat) (x : Nat) (hx : x < 2 ^ w) :
    toSigned w x % (2 : Int) ^ w = (x : Int) % (2 : Int) ^ w := by
  unfold toSigned
  split
  · rfl
  · rw [Int.sub_emod, Int.emod_self, sub_zero, Int.emod_emod_of_dvd]
    exact dvd_refl _

theorem toSigned_range (w : Nat) (hw : 0 < w) (x : Nat) (hx : x < 2 ^ w) :
    -(2 : Int) ^ (w - 1) ≤ toSigned w x ∧ toSigned w x < (2 : Int) ^ (w - 1) := by
  have hsplit : (2 : Int) ^ w = 2 ^ (w - 1) * 2 := by
    rw [← pow_succ]
    congr 1
    omega
  have hx' : (x : Int) < (2 : Int) ^ w := by
    have := natCast_two_pow w
    omega
  unfold toSigned
  split
  · rename_i h
    have h' : (x : Int) < (2 : Int) ^ (w - 1) := by
      have := natCast_two_pow (w - 1)
      omega
    have h0 : (0 : Int) ≤ (x : Int) := Int.natCast_nonneg x
    have := two_pow_pos (w - 1)
    exact ⟨by omega, h'⟩
  · rename_i h
    have h' : (2 : Int) ^ (w - 1) ≤ (x : Int) := by
      have := natCast_two_pow (w - 1)
      omega
    have := two_pow_pos (w - 1)
    exact ⟨by omega, by omega⟩

theorem int_eq_of_emod_eq_of_bounds (M a b : Int) (hM : 0 < M)
    (hmod : a % M = b % M) (h1 : -M < a - b) (h2 : a - b < M) : a = b := by
  have hdvd : M ∣ (a - b) :=
    Int.dvd_of_emod_eq_zero (Int.emod_eq_emod_iff_emod_sub_eq_zero.mp hmod)
  rcases hdvd with ⟨k, hk⟩
  rcases lt_trichotomy k 0 with hko | hko | hko
  · nlinarith
  · have : a - b = 0 := by rw [hk, hko, mul_zero]
    omega
  · nlinarith

theorem toSigned_ringWrap_emod (w : Nat) (n : Int) :
    toSigned w (ringWrap w n) % (2 : Int) ^ w = n % (2 : Int) ^ w := by
  rw [toSigned_emod w _ (ringWrap_lt w n), ringWrap_cast, Int.emod_emod_of_dvd]
  exact dvd_refl _

theorem toSigned_ringWrap_self (w : Nat) (hw : 0 < w) (n : Int)
    (h1 : -(2 : Int) ^ (w - 1) ≤ n) (h2 : n < (2 : Int) ^ (w - 1)) :
    toSigned w (ringWrap w n) = n := by
  have hsplit : (2 : Int) ^ w = 2 ^ (w - 1) * 2 := by
    rw [← pow_succ]
    congr 1
    omega
  have hrange := toSigned_range w hw (ringWrap w n) (ringWrap_lt w n)
  have hmod : toSigned w (ringWrap w n) % (2 : Int) ^ w = n % (2 : Int) ^ w :=
    toSigned_ringWrap_emod w n
  exact int_eq_of_emod_eq_of_bounds ((2 : Int) ^ w) _ n (two_pow_pos w) hmod
    (by omega) (by omega)

/-! List access helpers. -/

theorem getD_map' {α β : Type} (f : α → β) (dA : α) (dB : β) (xs : List α) (j : Nat)
    (hj : j < xs.length) :
    (xs.map f).getD j dB = f (xs.getD j dA) := by
  induction xs generalizing j with
  | nil => simp at hj
  | cons a as ih =>
    cases j with
    | zero => simp
    | succ n => simpa using ih n (by simpa using hj)

theorem getD_map (f : Nat → Nat) (xs : List Nat) (j : Nat) (hj : j < xs.length) :
    (xs.map f).getD j 0 = f (xs.getD j 0) :=
  getD_map' f 0 0 xs j hj

theorem getD_zipWith {α : Type} (f : α → α → α) (d : α) (xs ys : List α) (j : Nat)
    (hj : j < xs.length) (hl : xs.length = ys.length) :
    (List.zipWith f xs ys).getD j d = f (xs.getD j d) (ys.getD j d) := by
  induction xs generalizing ys j with
  | nil => simp at hj
  | cons a as ih =>
    cases ys with
    | nil => simp at hl
    | cons b bs =>
      cases j with
      | zero => simp
      | succ n =>
        simp only [List.zipWith, List.getD_cons_succ]
        exact ih bs n (by simpa using hj) (by simpa using hl)

/-! Claim C5: bit extraction picks the matching slice of bit decomposition. -/

/-- Claim C5: for every host ring tensor and bit index `i < w`, the first
axis of `bitDecompose` has length `w`, enumerates bit positions from least
significant upward with each slice obtained by right-shift-and-mask, and
`bitExtract i` equals its `i`-th slice. -/
theorem bit_extract_eq_bit_decompose_slice (w i : Nat) (xs : List Nat) (hi : i < w) :
    (bitDecompose w xs).length = w ∧
    (bitDecompose w xs)[i]? = some (xs.map (fun a => (a >>> i) &&& 1)) ∧
    (bitDecompose w xs)[i]? = some (bitExtract i xs) := by
  refine ⟨by simp [bitDecompose], ?_, ?_⟩ <;>
    simp [bitDecompose, bitExtract, List.getElem?_map, List.getElem?_range, hi]

/-- Witness for C5 at `w = 64`, `i = 63`, tensor `[2^63, 5]`. -/
theorem bit_extract_eq_bit_decompose_slice_witness :
    (bitDecompose 64 [2 ^ 63, 5]).length = 64 ∧
    (bitDecompose 64 [2 ^ 63, 5])[63]? =
      some ([2 ^ 63, 5].map (fun a => (a >>> 63) &&& 1)) ∧
    (bitDecompose 64 [2 ^ 63, 5])[63]? = some (bitExtract 63 [2 ^ 63, 5]) :=
  bit_extract_eq_bit_decompose_slice 64 63 [2 ^ 63, 5] (by decide)

/-! Claim C6: ring injection at bit index i is inverted by bit extraction. -/

theorem ringInject_bitExtract_elem (w i b : Nat) (hi : i < w) (hb : b ≤ 1) :
    (((b <<< i) % 2 ^ w) >>> i) &&& 1 = b := by
  rw [Nat.shiftLeft_eq, Nat.shiftRight_eq_div_pow, Nat.and_one_is_mod]
  interval_cases b
  · simp
  · have hlt : (2 : Nat) ^ i < 2 ^ w := Nat.pow_lt_pow_right (by norm_num) hi
    rw [one_mul, Nat.mod_eq_of_lt hlt, Nat.div_self (Nat.pos_pow_of_pos i (by norm_num))]

/-- Claim C6: for every host bit tensor with elements in 0..1 and every bit
index `i < w`, `bitExtract i (ringInject w i b) = b`. -/
theorem bit_extract_ring_inject (w i : Nat) (bs : List Nat) (hi : i < w)
    (hb : ∀ b ∈ bs, b ≤ 1) :
    bitExtract i (ringInject w i bs) = bs := by
  unfold bitExtract ringInject
  rw [List.map_map]
  have : ∀ b ∈ bs, ((fun a => (a >>> i) &&& 1) ∘ fun b => (b <<< i) % 2 ^ w) b = id b := by
    intro b hbmem
    simpa using ringInject_bitExtract_elem w i b hi (hb b hbmem)
  rw [List.map_congr_left this, List.map_id]

/-- Witness for C6 at `w = 64`, `i = 3`, bit tensor `[0, 1, 1, 0]`. -/
theorem bit_extract_ring_inject_witness :
    bitExtract 3 (ringInject 64 3 [0, 1, 1, 0]) = [0, 1, 1, 0] :=
  bit_extract_ring_inject 64 3 [0, 1, 1, 0] (by decide) (by decide)

/-! Claim C7: the sign law for host ring tensors. -/

theorem ringWrap_neg_one (w : Nat) (hw : 0 < w) : ringWrap w (-1) = 2 ^ w - 1 := by
  unfold ringWrap
  have h2 : (0 : Int) < (2 : Int) ^ w := two_pow_pos w
  have hmod : (-1 : Int) % (2 : Int) ^ w = (2 : Int) ^ w - 1 := by
    have h := Int.add_mul_emod_self_left (a := -1) (b := (2 : Int) ^ w) (c := 1)
    rw [mul_one] at h
    rw [← h, Int.emod_eq_of_lt (by omega) (by omega)]
    ring
  rw [hmod]
  have hcast := natCast_two_pow w
  omega

/-- Claim C7: each element of `signKernel` is the ring encoding of `+1` or
the bit-identical two's-complement `-1`, and equals `+1` exactly when the
corresponding input element is non-negative as a signed integer. -/
theorem sign_law (w : Nat) (xs : List Nat) (hw : 2 ≤ w) (hx : ∀ x ∈ xs, x < 2 ^ w) :
    (∀ y ∈ signKernel w xs, y = 1 ∨ y = 2 ^ w - 1) ∧
    (∀ j, j < xs.length →
      ((signKernel w xs).getD j 0 = 1 ↔ 0 ≤ toSigned w (xs.getD j 0))) := by
  have hwrap : ringWrap w (-1) = 2 ^ w - 1 := ringWrap_neg_one w (by omega)
  have hbig : 4 ≤ 2 ^ w := by
    calc (4 : Nat) = 2 ^ 2 := by norm_num
    _ ≤ 2 ^ w := Nat.pow_le_pow_right (by norm_num) hw
  constructor
  · intro y hy
    rcases List.mem_map.mp hy with ⟨x, _, rfl⟩
    unfold signElem
    split
    · right
      exact hwrap
    · left
      rfl
  · intro j hj
    have hmap := getD_map (signElem w) xs j hj
    unfold signKernel
    rw [hmap]
    unfold signElem
    split
    · rename_i h
      rw [hwrap]
      constructor
      · intro h1
        omega
      · intro h0
        omega
    · rename_i h
      constructor
      · intro _
        omega
      · intro _
        rfl

/-- Witness for C7 at `w = 64` on the tensor `[2^63, 5]` (one negative and
one non-negative element). -/
theorem sign_law_witness :
    (∀ y ∈ signKernel 64 [2 ^ 63, 5], y = 1 ∨ y = 2 ^ 64 - 1) ∧
    (∀ j, j < ([2 ^ 63, 5] : List Nat).length →
      ((signKernel 64 [2 ^ 63, 5]).getD j 0 = 1 ↔
        0 ≤ toSigned 64 (([2 ^ 63, 5] : List Nat).getD j 0))) :=
  sign_law 64 [2 ^ 63, 5] (by decide) (by decide)

/-! Claim C3: the less-than law for host ring tensors.

The kernels compute the sign bit of the wrapping difference `x - y`.  When
the signed difference overflows the width this is not the mathematical
signed comparison: for `x = 2^63` (signed `-2^63`) and `y = 1` the wrapped
difference is `2^63 - 1`, whose sign bit is `0`, although signed `x < y`. -/

/-- Counterexample to C3 as stated: at `x = [2^63]`, `y = [1]` over the
64-bit ring, `lessKernel` returns `[0]` even though the only element of
`x` is signed-less than the only element of `y`. -/
theorem less_not_signed_lt_counterexample :
    lessKernel 64 [2 ^ 63] [1] = [0] ∧ toSigned 64 (2 ^ 63) < toSigned 64 1 := by
  constructor
  · decide
  · decide

theorem less_elem_signed (w : Nat) (hw : 0 < w) (x y : Nat)
    (hx : x < 2 ^ w) (hy : y < 2 ^ w) :
    (lessElem w x y = 0 ∨ lessElem w x y = 1) ∧
    (lessElem w x y = 1 ↔ toSigned w (ringSubElem w x y) < 0) ∧
    (-(2 : Int) ^ (w - 1) ≤ toSigned w x - toSigned w y →
      toSigned w x - toSigned w y < (2 : Int) ^ (w - 1) →
      (lessElem w x y = 1 ↔ toSigned w x < toSigned w y)) := by
  refine ⟨?_, ?_, ?_⟩
  · unfold lessElem
    split
    · right
      rfl
    · left
      rfl
  · unfold lessElem
    split
    · rename_i h
      exact ⟨fun _ => h, fun _ => rfl⟩
    · rename_i h
      exact ⟨fun hc => by omega, fun hc => absurd hc h⟩
  · intro hlo hhi
    have hkey : toSigned w (ringSubElem w x y) = toSigned w x - toSigned w y := by
      unfold ringSubElem
      have hmodx := toSigned_emod w x hx
      have hmody := toSigned_emod w y hy
      have hmod : ((x : Int) - (y : Int)) % (2 : Int) ^ w =
          (toSigned w x - toSigned w y) % (2 : Int) ^ w := by
        rw [Int.sub_emod, ← hmodx, ← hmody, ← Int.sub_emod]
      have hww : ringWrap w ((x : Int) - (y : Int)) =
          ringWrap w (toSigned w x - toSigned w y) := by
        unfold ringWrap
        rw [hmod]
      rw [hww]
      exact toSigned_ringWrap_self w hw _ hlo hhi
    unfold lessElem
    rw [hkey]
    constructor
    · intro h1
      by_contra hc
      simp only [if_neg (by omega : ¬ toSigned w x - toSigned w y < 0)] at h1
      omega
    · intro hlt
      rw [if_pos (by omega : toSigned w x - toSigned w y < 0)]

/-- Claim C3, amended: `less` is total with elements in 0..1, each output
element is `1` exactly when the two's-complement interpretation of the
wrapping difference `x - y` is negative, and whenever the signed difference
does not overflow the width this coincides with signed `x < y`. -/
theorem less_ring_signed_law (w : Nat) (xs ys : List Nat) (hw : 0 < w)
    (hlen : xs.length = ys.length)
    (hx : ∀ a ∈ xs, a < 2 ^ w) (hy : ∀ a ∈ ys, a < 2 ^ w) :
    (lessKernel w xs ys).length = xs.length ∧
    (∀ j, j < xs.length →
      (((lessKernel w xs ys).getD j 0 = 0 ∨ (lessKernel w xs ys).getD j 0 = 1) ∧
       ((lessKernel w xs ys).getD j 0 = 1 ↔
         toSigned w (ringSubElem w (xs.getD j 0) (ys.getD j 0)) < 0) ∧
       (-(2 : Int) ^ (w - 1) ≤ toSigned w (xs.getD j 0) - toSigned w (ys.getD j 0) →
         toSigned w (xs.getD j 0) - toSigned w (ys.getD j 0) < (2 : Int) ^ (w - 1) →
         ((lessKernel w xs ys).getD j 0 = 1 ↔
           toSigned w (xs.getD j 0) < toSigned w (ys.getD j 0))))) := by
  constructor
  · unfold lessKernel
    rw [List.length_zipWith]
    omega
  · intro j hj
    have hzip := getD_zipWith (lessElem w) 0 xs ys j hj hlen
    unfold lessKernel
    rw [hzip]
    have hxj : xs.getD j 0 < 2 ^ w := by
      apply hx
      rw [List.getD_eq_getElem xs 0 hj]
      exact List.getElem_mem hj
    have hyj : ys.getD j 0 < 2 ^ w := by
      apply hy
      rw [List.getD_eq_getElem ys 0 (by omega)]
      exact List.getElem_mem (by omega)
    exact less_elem_signed w hw (xs.getD j 0) (ys.getD j 0) hxj hyj

/-- Witness for the amended C3 at `w = 64`, `xs = [3, 2^63]`, `ys = [5, 7]`. -/
theorem less_ring_signed_law_witness :
    (lessKernel 64 [3, 2 ^ 63] [5, 7]).length = ([3, 2 ^ 63] : List Nat).length ∧
    (∀ j, j < ([3, 2 ^ 63] : List Nat).length →
      (((lessKernel 64 [3, 2 ^ 63] [5, 7]).getD j 0 = 0 ∨
        (lessKernel 64 [3, 2 ^ 63] [5, 7]).getD j 0 = 1) ∧
       ((lessKernel 64 [3, 2 ^ 63] [5, 7]).getD j 0 = 1 ↔
         toSigned 64 (ringSubElem 64 (([3, 2 ^ 63] : List Nat).getD j 0)
           (([5, 7] : List Nat).getD j 0)) < 0) ∧
       (-(2 : Int) ^ (64 - 1) ≤ toSigned 64 (([3, 2 ^ 63] : List Nat).getD j 0) -
           toSigned 64 (([5, 7] : List Nat).getD j 0) →
         toSigned 64 (([3, 2 ^ 63] : List Nat).getD j 0) -
           toSigned 64 (([5, 7] : List Nat).getD j 0) < (2 : Int) ^ (64 - 1) →
         ((lessKernel 64 [3, 2 ^ 63] [5, 7]).getD j 0 = 1 ↔
           toSigned 64 (([3, 2 ^ 63] : List Nat).getD j 0) <
             toSigned 64 (([5, 7] : List Nat).getD j 0))))) :=
  less_ring_signed_law 64 [3, 2 ^ 63] [5, 7] (by decide) (by decide)
    (by decide) (by decide)

/-! Choreography server model (`src/moose/src/choreography/grpc.rs`).

The gRPC endpoints are embedded as pure functions.  External collaborators
appear as inputs: the result of `crate::grpc::extract_sender` and of each
`bincode::deserialize` call is passed in as an `Except`, and the outcome of
`ExecutionContext::execute_computation` likewise.  The session-id to
result-cell map (`DashMap<SessionId, Arc<AsyncCell<..>>>`) is an
association list, a fresh `AsyncCell::shared()` being `CellState.empty`. -/

/-- Status codes of `tonic::Status` used by the server. -/
inductive GrpcCode
  | aborted
  | notFound
deriving DecidableEq

/-- A `tonic::Status`: code plus message. -/
structure GrpcStatus where
  code : GrpcCode
  msg : String
deriving DecidableEq

/-- One-shot result cell (`Arc<AsyncCell<ComputationOutputs>>`): empty until
the detached writer task fills it. -/
inductive CellState (Ω : Type)
  | empty
  | filled (outputs : Ω)
deriving DecidableEq

/-- The session-id to result-cell map. -/
def ResultStores (Ω : Type) : Type := List (String × CellState Ω)

/-- Kernel of `GrpcChoreography::check_choreographer`: compare the
configured choreographer identity with the sender identity extracted from
transport credentials. -/
def checkChoreographer (choreographer : Option String)
    (sender : Except Unit (Option String)) : Except GrpcStatus Unit :=
  match sender with
  | .error _ => .error ⟨.aborted, "failed to extract sender identity"⟩
  | .ok extracted =>
    match choreographer, extracted with
    | none, none => .ok ()
    | none, some _ => .error ⟨.aborted, "did not expect choreographer certificate"⟩
    | some _, none => .error ⟨.aborted, "expected choreographer certificate"⟩
    | some expected, some actual =>
      if expected ≠ actual then
        .error ⟨.aborted, "expected choreographer did not match actual"⟩
      else
        .ok ()

/-- Result of one `launch_computation` call: the gRPC response, the updated
result-store map, and the outputs handed to the spawned detached writer
task (`none` when no task was spawned). -/
structure LaunchResult (Ω Θ : Type) where
  response : Except GrpcStatus Unit
  stores : ResultStores Ω
  spawned : Option Θ

/-- `GrpcChoreography::launch_computation`.  `sessionIdPayload`,
`computationPayload`, `argumentsPayload` and `rolesPayload` are the results
of the four `bincode::deserialize` calls; `execOutcome` is the result of
`ExecutionContext::execute_computation`, its `Θ` value the outputs map
moved into the spawned task. -/
def launchComputation {Ω C A R Θ : Type}
    (choreographer : Option String) (sender : Except Unit (Option String))
    (stores : ResultStores Ω)
    (sessionIdPayload : Except Unit String)
    (computationPayload : Except Unit C)
    (argumentsPayload : Except Unit A)
    (rolesPayload : Except Unit R)
    (execOutcome : Except Unit Θ) : LaunchResult Ω Θ :=
  match checkChoreographer choreographer sender with
  | .error st => ⟨.error st, stores, none⟩
  | .ok _ =>
    match sessionIdPayload with
    | .error _ => ⟨.error ⟨.aborted, "failed to parse session id"⟩, stores, none⟩
    | .ok sessionId =>
      match List.lookup sessionId stores with
      | some _ =>
        ⟨.error ⟨.aborted, "session id exists already or inconsistent metric and result map"⟩,
          stores, none⟩
      | none =>
        let stores1 : ResultStores Ω := (sessionId, CellState.empty) :: stores
        match computationPayload with
        | .error _ => ⟨.error ⟨.aborted, "failed to parse computation"⟩, stores1, none⟩
        | .ok _ =>
          match argumentsPayload with
          | .error _ => ⟨.error ⟨.aborted, "failed to parse arguments"⟩, stores1, none⟩
          | .ok _ =>
            match rolesPayload with
            | .error _ => ⟨.error ⟨.aborted, "failed to parse role assignment"⟩, stores1, none⟩
            | .ok _ =>
              match execOutcome with
              | .error _ => ⟨.error ⟨.aborted, "failed launch computation"⟩, stores1, none⟩
              | .ok outputs => ⟨.ok (), stores1, some outputs⟩

/-- `GrpcChoreography::retrieve_results`.  A successful return carries the
cell the endpoint awaits: a `filled` cell resolves immediately with its
outputs, an `empty` cell suspends until the detached task fills it. -/
def retrieveResults {Ω : Type}
    (choreographer : Option String) (sender : Except Unit (Option String))
    (stores : ResultStores Ω)
    (sessionIdPayload : Except Unit String) : Except GrpcStatus (CellState Ω) :=
  match checkChoreographer choreographer sender with
  | .error st => .error st
  | .ok _ =>
    match sessionIdPayload with
    | .error _ => .error ⟨.aborted, "failed to parse session id"⟩
    | .ok sessionId =>
      match List.lookup sessionId stores with
      | some cell => .ok cell
      | none => .error ⟨.notFound, "unknown session id"⟩

/-- Shared description of the duplicate-session branch of
`launch_computation`; used by the claims C1 and C10. -/
theorem launch_occupied {Ω C A R Θ : Type}
    (choreographer : Option String) (sender : Except Unit (Option String))
    (stores : ResultStores Ω) (sessionId : String)
    (cp : Except Unit C) (ap : Except Unit A) (rp : Except Unit R)
    (ex : Except Unit Θ) (cell : CellState Ω)
    (hchk : checkChoreographer choreographer sender = .ok ())
    (hocc : List.lookup sessionId stores = some cell) :
    launchComputation choreographer sender stores (.ok sessionId) cp ap rp ex =
      ⟨.error ⟨.aborted, "session id exists already or inconsistent metric and result map"⟩,
        stores, none⟩ := by
  simp [launchComputation, hchk, hocc]

/-! Claim C8: choreographer authorization. -/

/-- Claim C8: with a configured choreographer the request is accepted
exactly when it carries the matching sender identity, and every other
combination (missing identity, mismatching identity, or an identity
when none was configured) is rejected with an `Aborted` status; with no
configured choreographer only an identity-free request passes. -/
theorem check_choreographer_law (cfg obs : Option String) :
    (checkChoreographer cfg (.ok obs) = .ok () ↔ cfg = obs) ∧
    (checkChoreographer cfg (.ok obs) = .ok () ∨
      ∃ m, checkChoreographer cfg (.ok obs) = .error ⟨.aborted, m⟩) ∧
    (∀ e : Unit, ∃ m, checkChoreographer cfg (.error e) = .error ⟨.aborted, m⟩) := by
  refine ⟨?_, ?_, fun e => ⟨"failed to extract sender identity", rfl⟩⟩
  · cases cfg with
    | none =>
      cases obs with
      | none => simp [checkChoreographer]
      | some a => simp [checkChoreographer]
    | some c =>
      cases obs with
      | none => simp [checkChoreographer]
      | some a =>
        by_cases h : c = a
        · subst h
          simp [checkChoreographer]
        · simp [checkChoreographer, h]
  · cases cfg with
    | none =>
      cases obs with
      | none => left; rfl
      | some a => right; exact ⟨"did not expect choreographer certificate", rfl⟩
    | some c =>
      cases obs with
      | none => right; exact ⟨"expected choreographer certificate", rfl⟩
      | some a =>
        by_cases h : c = a
        · left
          simp [checkChoreographer, h]
        · right
          refine ⟨"expected choreographer did not match actual", ?_⟩
          simp [checkChoreographer, h]

/-! Claim C1: duplicate launches are rejected and leave the map unchanged. -/

/-- Claim C1: once a result cell exists for a session id, a further
`launch_computation` carrying that session id returns an `Aborted` status
whose message contains "session id exists already", and the store map
(hence the existing cell) is unchanged and no writer task is spawned. -/
theorem launch_duplicate_rejected {Ω C A R Θ : Type}
    (choreographer : Option String) (sender : Except Unit (Option String))
    (stores : ResultStores Ω) (sessionId : String)
    (cp : Except Unit C) (ap : Except Unit A) (rp : Except Unit R)
    (ex : Except Unit Θ) (cell : CellState Ω)
    (hchk : checkChoreographer choreographer sender = .ok ())
    (hocc : List.lookup sessionId stores = some cell) :
    ∃ m, launchComputation choreographer sender stores (.ok sessionId) cp ap rp ex =
        ⟨.error ⟨.aborted, m⟩, stores, none⟩ ∧
      ∃ s t : String, m = s ++ "session id exists already" ++ t := by
  refine ⟨"session id exists already or inconsistent metric and result map",
    launch_occupied choreographer sender stores sessionId cp ap rp ex cell hchk hocc,
    "", " or inconsistent metric and result map", rfl⟩

/-- Witness for C1: a concrete duplicate launch against a one-entry map. -/
theorem launch_duplicate_rejected_witness :
    ∃ m, launchComputation (Ω := Unit) (C := Unit) (A := Unit) (R := Unit) (Θ := Unit)
        none (.ok none) [("sid-1", CellState.empty)] (.ok "sid-1")
        (.ok ()) (.ok ()) (.ok ()) (.ok ()) =
        ⟨.error ⟨.aborted, m⟩, [("sid-1", CellState.empty)], none⟩ ∧
      ∃ s t : String, m = s ++ "session id exists already" ++ t :=
  launch_duplicate_rejected none (.ok none) [("sid-1", CellState.empty)] "sid-1"
    (.ok ()) (.ok ()) (.ok ()) (.ok ()) CellState.empty rfl rfl

/-! Claim C10: a launch that fails after the entry check leaves an orphaned
empty cell behind. -/

/-- Claim C10: when the session id parses and is fresh but a later step of
the same call fails (computation, arguments, or role-assignment payload
fails to deserialize, or execution errors), the call returns `Aborted`,
no writer task is spawned, and the freshly inserted empty cell stays in the
map; a second launch with the same session id is then rejected as a
duplicate, and `retrieve_results` for that id awaits the never-filled cell
instead of returning `NotFound`. -/
theorem launch_midway_failure_orphans_cell {Ω C A R Θ : Type}
    (choreographer : Option String) (sender : Except Unit (Option String))
    (stores : ResultStores Ω) (sessionId : String)
    (cp : Except Unit C) (ap : Except Unit A) (rp : Except Unit R)
    (ex : Except Unit Θ)
    (hchk : checkChoreographer choreographer sender = .ok ())
    (hfresh : List.lookup sessionId stores = none)
    (hfail : cp.isOk = false ∨ ap.isOk = false ∨ rp.isOk = false ∨ ex.isOk = false) :
    (∃ m, (launchComputation choreographer sender stores (.ok sessionId) cp ap rp ex).response =
        .error ⟨.aborted, m⟩) ∧
    (launchComputation choreographer sender stores (.ok sessionId) cp ap rp ex).spawned = none ∧
    (launchComputation choreographer sender stores (.ok sessionId) cp ap rp ex).stores =
      (sessionId, CellState.empty) :: stores ∧
    (∀ (cp2 : Except Unit C) (ap2 : Except Unit A) (rp2 : Except Unit R) (ex2 : Except Unit Θ),
      ∃ m2, launchComputation choreographer sender
          ((sessionId, CellState.empty) :: stores) (.ok sessionId) cp2 ap2 rp2 ex2 =
          ⟨.error ⟨.aborted, m2⟩, (sessionId, CellState.empty) :: stores, none⟩ ∧
        ∃ s t : String, m2 = s ++ "session id exists already" ++ t) ∧
    retrieveResults choreographer sender ((sessionId, CellState.empty) :: stores)
      (.ok sessionId) = .ok CellState.empty := by
  have hlk : List.lookup sessionId ((sessionId, CellState.empty (Ω := Ω)) :: stores) =
      some CellState.empty := by
    simp [List.lookup]
  refine ⟨?_, ?_, ?_, ?_, ?_⟩
  · rcases cp with e | cv
    · exact ⟨"failed to parse computation", by simp [launchComputation, hchk, hfresh]⟩
    · rcases ap with e | av
      · exact ⟨"failed to parse arguments", by simp [launchComputation, hchk, hfresh]⟩
      · rcases rp with e | rv
        · exact ⟨"failed to parse role assignment", by simp [launchComputation, hchk, hfresh]⟩
        · rcases ex with e | xv
          · exact ⟨"failed launch computation", by simp [launchComputation, hchk, hfresh]⟩
          · simp [Except.isOk, Except.toBool] at hfail
  · rcases cp with e | cv
    · simp [launchComputation, hchk, hfresh]
    · rcases ap with e | av
      · simp [launchComputation, hchk, hfresh]
      · rcases rp with e | rv
        · simp [launchComputation, hchk, hfresh]
        · rcases ex with e | xv
          · simp [launchComputation, hchk, hfresh]
          · simp [Except.isOk, Except.toBool] at hfail
  · rcases cp with e | cv
    · simp [launchComputation, hchk, hfresh]
    · rcases ap with e | av
      · simp [launchComputation, hchk, hfresh]
      · rcases rp with e | rv
        · simp [launchComputation, hchk, hfresh]
        · rcases ex with e | xv
          · simp [launchComputation, hchk, hfresh]
          · simp [Except.isOk, Except.toBool] at hfail
  · intro cp2 ap2 rp2 ex2
    refine ⟨"session id exists already or inconsistent metric and result map",
      launch_occupied choreographer sender _ sessionId cp2 ap2 rp2 ex2
        CellState.empty hchk hlk,
      "", " or inconsistent metric and result map", rfl⟩
  · simp [retrieveResults, hchk, hlk]

/-- Witness for C10: a concrete launch whose computation payload fails to
deserialize against an empty map. -/
theorem launch_midway_failure_orphans_cell_witness :
    (∃ m, (launchComputation (Ω := Unit) (C := Unit) (A := Unit) (R := Unit) (Θ := Unit)
        none (.ok none) [] (.ok "sid-9") (.error ()) (.ok ()) (.ok ()) (.ok ())).response =
        .error ⟨.aborted, m⟩) ∧
    (launchComputation (Ω := Unit) (C := Unit) (A := Unit) (R := Unit) (Θ := Unit)
        none (.ok none) [] (.ok "sid-9") (.error ()) (.ok ()) (.ok ()) (.ok ())).spawned = none ∧
    (launchComputation (Ω := Unit) (C := Unit) (A := Unit) (R := Unit) (Θ := Unit)
        none (.ok none) [] (.ok "sid-9") (.error ()) (.ok ()) (.ok ()) (.ok ())).stores =
      [("sid-9", CellState.empty)] ∧
    (∀ (cp2 ap2 rp2 ex2 : Except Unit Unit),
      ∃ m2, launchComputation (Ω := Unit)
          none (.ok none) [("sid-9", CellState.empty)] (.ok "sid-9") cp2 ap2 rp2 ex2 =
          ⟨.error ⟨.aborted, m2⟩, [("sid-9", CellState.empty)], none⟩ ∧
        ∃ s t : String, m2 = s ++ "session id exists already" ++ t) ∧
    retrieveResults (Ω := Unit) none (.ok none) [("sid-9", CellState.empty)]
      (.ok "sid-9") = .ok CellState.empty := by
  have h := launch_midway_failure_orphans_cell (Ω := Unit) (C := Unit) (A := Unit)
    (R := Unit) (Θ := Unit) none (.ok none) [] "sid-9"
    (.error ()) (.ok ()) (.ok ()) (.ok ()) rfl rfl (Or.inl rfl)
  simpa using h

/-! AddN kernels (`AddNOp::host_kernel`, `AddNOp::host_float_kernel` in
`src/moose/src/host/ops.rs`, `AddNOp::float_kernel` in
`src/moose/src/floatingpoint/ops.rs`). -/

/-- Error kinds surfaced by the kernels modelled here. -/
inductive MooseError
  | invalidArgument (msg : String)
  | kernelError (msg : String)
deriving DecidableEq

/-- Elementwise wrapping addition of two ring tensors (`acc + &item.0` on
`Wrapping` arrays; the source requires equal shapes). -/
def ringAddTensor (w : Nat) (a b : List Nat) : List Nat :=
  List.zipWith (fun x y => (x + y) % 2 ^ w) a b

/-- `AddNOp::host_kernel`: reject the empty list, otherwise left-fold
addition starting from the first tensor. -/
def addNHostRing (w : Nat) (xs : List (List Nat)) : Except MooseError (List Nat) :=
  match xs with
  | [] => .error (.invalidArgument "cannot reduce on empty array of tensors")
  | base :: rest => .ok (rest.foldl (ringAddTensor w) base)

/-- Elementwise addition of two host float tensors, floats embedded as
exact rationals. -/
def floatAddTensor (a b : List ℚ) : List ℚ :=
  List.zipWith (· + ·) a b

/-- `AddNOp::host_float_kernel`: reject the empty list, otherwise left-fold
addition starting from the first tensor. -/
def addNHostFloat (xs : List (List ℚ)) : Except MooseError (List ℚ) :=
  match xs with
  | [] => .error (.invalidArgument "cannot reduce on empty array of tensors")
  | base :: rest => .ok (rest.foldl floatAddTensor base)

/-- `AddNOp::float_kernel` (floatingpoint layer): its own empty check, then
`plc.add_n` on the unwrapped host tensors, which dispatches to
`AddNOp::host_float_kernel`. -/
def addNFloat (xs : List (List ℚ)) : Except MooseError (List ℚ) :=
  match xs with
  | [] => .error (.invalidArgument "cannot add_n on empty array of tensors")
  | _ => addNHostFloat xs

theorem getD_ringAddTensor (w : Nat) (a b : List Nat) (j : Nat)
    (hj : j < a.length) (hl : a.length = b.length) :
    (ringAddTensor w a b).getD j 0 = (a.getD j 0 + b.getD j 0) % 2 ^ w :=
  getD_zipWith (fun x y => (x + y) % 2 ^ w) 0 a b j hj hl

theorem ringAddTensor_length (w : Nat) (a b : List Nat) (hl : a.length = b.length) :
    (ringAddTensor w a b).length = a.length := by
  unfold ringAddTensor
  rw [List.length_zipWith]
  omega

theorem foldl_ringAddTensor (w n : Nat) (rest : List (List Nat)) :
    ∀ base : List Nat, base.length = n → (∀ a ∈ base, a < 2 ^ w) →
      (∀ t ∈ rest, t.length = n) →
      (rest.foldl (ringAddTensor w) base).length = n ∧
      ∀ j, j < n → (rest.foldl (ringAddTensor w) base).getD j 0 =
        (base.getD j 0 + (rest.map (fun t => t.getD j 0)).sum) % 2 ^ w := by
  induction rest with
  | nil =>
    intro base hb helem _
    refine ⟨hb, fun j hj => ?_⟩
    have hmem : base.getD j 0 ∈ base := by
      rw [List.getD_eq_getElem base 0 (by omega)]
      exact List.getElem_mem (by omega)
    have hmod : base.getD j 0 % 2 ^ w = base.getD j 0 := Nat.mod_eq_of_lt (helem _ hmem)
    simp only [List.foldl_nil, List.map_nil, List.sum_nil, Nat.add_zero]
    exact hmod.symm
  | cons t rest ih =>
    intro base hb helem hall
    have htlen : t.length = n := hall t (List.mem_cons_self _ _)
    have hblen : (ringAddTensor w base t).length = n := by
      rw [ringAddTensor_length w base t (by omega)]
      exact hb
    have hbelem : ∀ a ∈ ringAddTensor w base t, a < 2 ^ w := by
      intro a ha
      rcases List.mem_iff_getElem.mp ha with ⟨j, hj, rfl⟩
      have hj' : j < base.length := by
        rw [ringAddTensor_length w base t (by omega)] at hj
        exact hj
      rw [← List.getD_eq_getElem _ 0 hj]
      rw [getD_ringAddTensor w base t j hj' (by omega)]
      exact Nat.mod_lt _ (Nat.pos_pow_of_pos w (by norm_num))
    have hrest : ∀ u ∈ rest, u.length = n := fun u hu => hall u (List.mem_cons_of_mem t hu)
    obtain ⟨hlen', hval'⟩ := ih (ringAddTensor w base t) hblen hbelem hrest
    refine ⟨by simpa using hlen', fun j hj => ?_⟩
    have := hval' j hj
    simp only [List.foldl_cons]
    rw [this, getD_ringAddTensor w base t j (by omega) (by omega)]
    rw [Nat.mod_add_mod]
    simp [Nat.add_assoc]

theorem floatAddTensor_length (a b : List ℚ) (hl : a.length = b.length) :
    (floatAddTensor a b).length = a.length := by
  unfold floatAddTensor
  rw [List.length_zipWith]
  omega

theorem foldl_floatAddTensor (n : Nat) (rest : List (List ℚ)) :
    ∀ base : List ℚ, base.length = n → (∀ t ∈ rest, t.length = n) →
      (rest.foldl floatAddTensor base).length = n ∧
      ∀ j, j < n → (rest.foldl floatAddTensor base).getD j 0 =
        base.getD j 0 + (rest.map (fun t => t.getD j 0)).sum := by
  induction rest with
  | nil =>
    intro base hb _
    exact ⟨hb, fun j hj => by simp⟩
  | cons t rest ih =>
    intro base hb hall
    have htlen : t.length = n := hall t (List.mem_cons_self _ _)
    have hblen : (floatAddTensor base t).length = n := by
      rw [floatAddTensor_length base t (by omega)]
      exact hb
    have hrest : ∀ u ∈ rest, u.length = n := fun u hu => hall u (List.mem_cons_of_mem t hu)
    obtain ⟨hlen', hval'⟩ := ih (floatAddTensor base t) hblen hrest
    refine ⟨by simpa using hlen', fun j hj => ?_⟩
    have := hval' j hj
    simp only [List.foldl_cons]
    rw [this]
    unfold floatAddTensor
    rw [getD_zipWith (· + ·) 0 base t j (by omega) (by omega)]
    simp [add_assoc]

/-- Claim C9: `add_n` on the empty list fails with `InvalidArgument` (both
the host ring kernel and the floatingpoint kernel), and on a non-empty
list of equal-shape tensors returns the elementwise sum obtained as the
left fold of addition starting from the first tensor: wrapping modulo
`2 ^ w` on ring tensors, exact on float tensors. -/
theorem add_n_law (w n : Nat) :
    addNHostRing w [] = .error (.invalidArgument "cannot reduce on empty array of tensors") ∧
    addNHostFloat [] = .error (.invalidArgument "cannot reduce on empty array of tensors") ∧
    addNFloat [] = .error (.invalidArgument "cannot add_n on empty array of tensors") ∧
    (∀ xs : List (List Nat), xs ≠ [] → (∀ t ∈ xs, t.length = n) →
      (∀ t ∈ xs, ∀ a ∈ t, a < 2 ^ w) →
      ∃ r, addNHostRing w xs = .ok r ∧ r.length = n ∧
        ∀ j, j < n → r.getD j 0 = (xs.map (fun t => t.getD j 0)).sum % 2 ^ w) ∧
    (∀ xs : List (List ℚ), xs ≠ [] → (∀ t ∈ xs, t.length = n) →
      ∃ r, addNFloat xs = .ok r ∧ r.length = n ∧
        ∀ j, j < n → r.getD j 0 = (xs.map (fun t => t.getD j 0)).sum) := by
  refine ⟨rfl, rfl, rfl, ?_, ?_⟩
  · intro xs hne hlen hel
    match xs with
    | [] => exact absurd rfl hne
    | base :: rest =>
      obtain ⟨hl, hv⟩ := foldl_ringAddTensor w n rest base
        (hlen base (List.mem_cons_self _ _))
        (hel base (List.mem_cons_self _ _))
        (fun t ht => hlen t (List.mem_cons_of_mem base ht))
      exact ⟨_, rfl, hl, fun j hj => by rw [hv j hj]; simp⟩
  · intro xs hne hlen
    match xs with
    | [] => exact absurd rfl hne
    | base :: rest =>
      obtain ⟨hl, hv⟩ := foldl_floatAddTensor n rest base
        (hlen base (List.mem_cons_self _ _))
        (fun t ht => hlen t (List.mem_cons_of_mem base ht))
      exact ⟨_, rfl, hl, fun j hj => by rw [hv j hj]; simp⟩

/-- Witness for C9: the empty case and a concrete three-tensor sum with a
wrapping element over the 64-bit ring. -/
theorem add_n_law_witness :
    addNHostRing 64 [] = .error (.invalidArgument "cannot reduce on empty array of tensors") ∧
    (∃ r, addNHostRing 64 [[1, 2], [3, 4], [2 ^ 64 - 1, 6]] = .ok r ∧ r.length = 2 ∧
      ∀ j, j < 2 → r.getD j 0 =
        (([[1, 2], [3, 4], [2 ^ 64 - 1, 6]] : List (List Nat)).map
          (fun t => t.getD j 0)).sum % 2 ^ 64) ∧
    (∃ r, addNFloat [[1/2, 3], [5/2, 4]] = .ok r ∧ r.length = 2 ∧
      ∀ j, j < 2 → r.getD j 0 =
        (([[1/2, 3], [5/2, 4]] : List (List ℚ)).map (fun t => t.getD j 0)).sum) := by
  obtain ⟨h1, h2, h3, h4, h5⟩ := add_n_law 64 2
  refine ⟨h1, ?_, ?_⟩
  · exact h4 [[1, 2], [3, 4], [2 ^ 64 - 1, 6]] (by decide) (by decide) (by decide)
  · exact h5 [[1/2, 3], [5/2, 4]] (by decide) (by decide)

/-! Symbolic session model (`src/moose/src/execution/symbolic.rs`).

`add_operation` is generic in the source (`O: Into<Operator>`,
`P: Into<Q> + Into<Placement>`); the embedding keeps the generic operator
and placement types and takes the three conversions as functions.  The
state struct `SymbolicSessionState` has the emitted `ops` plus the
`replicated_keys` cache, which `add_operation` never touches. -/

/-- `crate::computation::Operation`: a node of a computation graph. -/
structure Operation (O P : Type) where
  name : String
  kind : O
  inputs : List String
  placement : P
deriving DecidableEq

/-- `crate::computation::Computation`: an ordered operation sequence. -/
structure Computation (O P : Type) where
  operations : List (Operation O P)
deriving DecidableEq

/-- `SymbolicHandle`: the name of the producing operation plus placement. -/
structure SymbolicHandle (Q : Type) where
  op : String
  plc : Q
deriving DecidableEq

/-- `SymbolicSessionState`: emitted operations plus the replicated-setup
cache (an association list standing for the `HashMap`). -/
structure SymbolicSessionState (O P K V : Type) where
  ops : List (Operation O P)
  replicatedKeys : List (K × V)

/-- `SymbolicSession::add_operation`: under the write lock, name the new
operation `op_<n>` where `n` is the number of already-emitted operations,
push it, and return the symbolic handle. -/
def addOperation {O Oc P Pc Q K V : Type}
    (toOperator : O → Oc) (toPlacement : P → Pc) (intoQ : P → Q)
    (st : SymbolicSessionState Oc Pc K V)
    (operator : O) (operands : List String) (plc : P) :
    SymbolicSessionState Oc Pc K V × SymbolicHandle Q :=
  let opName : String := "op_" ++ toString st.ops.length
  let op : Operation Oc Pc :=
    ⟨opName, toOperator operator, operands, toPlacement plc⟩
  (⟨st.ops ++ [op], st.replicatedKeys⟩, ⟨opName, intoQ plc⟩)

/-- A sequence of `add_operation` calls against the same session state,
returning the final state and the handles in call order. -/
def addOperations {O Oc P Pc Q K V : Type}
    (toOperator : O → Oc) (toPlacement : P → Pc) (intoQ : P → Q) :
    SymbolicSessionState Oc Pc K V → List (O × List String × P) →
      SymbolicSessionState Oc Pc K V × List (SymbolicHandle Q)
  | st, [] => (st, [])
  | st, (operator, operands, plc) :: calls =>
    let next := addOperation toOperator toPlacement intoQ st operator operands plc
    let rest := addOperations toOperator toPlacement intoQ next.1 calls
    (rest.1, next.2 :: rest.2)

/-- Gather operand values by input name from the executor's environment
(`env.get(input_name).unwrap()`; the unwrap panic on a missing name is
modelled as `none`). -/
def gatherOperands {V : Type} (env : List (String × V)) : List String → Option (List V)
  | [] => some []
  | nm :: rest =>
    match List.lookup nm env with
    | none => none
    | some v => (gatherOperands env rest).map (fun vs => v :: vs)

/-- The walk of `SymbolicExecutor::run_computation`: iterate the input
operations in order, gather operands from the name environment, execute
through the strategy (which may mutate the session state), and bind the
result in the environment.  `strategyExec` stands for
`session.execute(&op.kind, &op.placement, operands)`. -/
def runOperations {O P K V Val : Type}
    (strategyExec : SymbolicSessionState O P K V → O → P → List Val →
      Except String (SymbolicSessionState O P K V × Val)) :
    SymbolicSessionState O P K V → List (String × Val) → List (Operation O P) →
      Except String (SymbolicSessionState O P K V)
  | st, _, [] => .ok st
  | st, env, op :: rest =>
    match gatherOperands env op.inputs with
    | none => .error "missing input value"
    | some operands =>
      match strategyExec st op.kind op.placement operands with
      | .error e =>
        .error ("SymbolicSession failed to lower computation due to an error: " ++ e)
      | .ok (st1, v) => runOperations strategyExec st1 ((op.name, v) :: env) rest

/-- `SymbolicExecutor::run_computation`: walk the input computation with a
fresh default session, then lift the session's emitted `ops` into the
returned `Computation`. -/
def runComputation {O P K V Val : Type}
    (strategyExec : SymbolicSessionState O P K V → O → P → List Val →
      Except String (SymbolicSessionState O P K V × Val)) (c : Computation O P) :
    Except String (Computation O P) :=
  match runOperations strategyExec ⟨[], []⟩ [] c.operations with
  | .error e => .error e
  | .ok st => .ok ⟨st.ops⟩

/-- The default behaviour of a symbolic kernel (spec section 4.5): register
the dispatched operation via `add_operation`, taking the operand names from
the operand handles, and return the fresh handle. -/
def registerExec {O P K V : Type} :
    SymbolicSessionState O P K V → O → P → List (SymbolicHandle P) →
      Except String (SymbolicSessionState O P K V × SymbolicHandle P) :=
  fun st operator plc operands =>
    .ok (addOperation id id id st operator (operands.map (fun h => h.op)) plc)

/-- Well-formedness of a computation: each operation refers only to names
bound earlier (the data-model invariant of spec section 3). -/
def wellFormedFrom {O P : Type} : List String → List (Operation O P) → Prop
  | _, [] => True
  | seen, op :: rest =>
    (∀ nm ∈ op.inputs, nm ∈ seen) ∧ wellFormedFrom (op.name :: seen) rest

theorem addOperations_spec {O Oc P Pc Q K V : Type}
    (toOperator : O → Oc) (toPlacement : P → Pc) (intoQ : P → Q)
    (calls : List (O × List String × P)) :
    ∀ st : SymbolicSessionState Oc Pc K V,
      ((addOperations toOperator toPlacement intoQ st calls).1.ops.length =
        st.ops.length + calls.length) ∧
      (∀ j : Nat, (addOperations toOperator toPlacement intoQ st calls).1.ops[j]? =
        if j < st.ops.length then st.ops[j]?
        else (calls[j - st.ops.length]?).map (fun c =>
          (⟨"op_" ++ toString j, toOperator c.1, c.2.1, toPlacement c.2.2⟩ : Operation Oc Pc))) ∧
      (∀ j : Nat, (addOperations toOperator toPlacement intoQ st calls).2[j]? =
        (calls[j]?).map (fun c =>
          (⟨"op_" ++ toString (st.ops.length + j), intoQ c.2.2⟩ : SymbolicHandle Q))) ∧
      (addOperations toOperator toPlacement intoQ st calls).1.replicatedKeys =
        st.replicatedKeys := by
  induction calls with
  | nil =>
    intro st
    refine ⟨by simp [addOperations], fun j => ?_, fun j => by simp [addOperations], rfl⟩
    simp only [addOperations]
    by_cases hj : j < st.ops.length
    · rw [if_pos hj]
    · rw [if_neg hj, List.getElem?_eq_none (show st.ops.length ≤ j by omega)]
      simp
  | cons c calls ih =>
    intro st
    obtain ⟨c1, c2, c3⟩ := c
    have hnext :
        (addOperation toOperator toPlacement intoQ st c1 c2 c3).1.ops =
          st.ops ++ [⟨"op_" ++ toString st.ops.length, toOperator c1, c2, toPlacement c3⟩] := rfl
    have hlen : (addOperation toOperator toPlacement intoQ st c1 c2 c3).1.ops.length =
        st.ops.length + 1 := by
      rw [hnext]
      simp
    obtain ⟨ih1, ih2, ih3, ih4⟩ := ih (addOperation toOperator toPlacement intoQ st c1 c2 c3).1
    refine ⟨?_, fun j => ?_, fun j => ?_, ?_⟩
    · show (addOperations toOperator toPlacement intoQ
          (addOperation toOperator toPlacement intoQ st c1 c2 c3).1 calls).1.ops.length = _
      rw [ih1, hlen]
      simp
      omega
    · show (addOperations toOperator toPlacement intoQ
          (addOperation toOperator toPlacement intoQ st c1 c2 c3).1 calls).1.ops[j]? = _
      rw [ih2 j, hlen]
      by_cases hj : j < st.ops.length
      · rw [if_pos (by omega), if_pos hj, hnext, List.getElem?_append_left hj]
      · by_cases hj2 : j = st.ops.length
        · subst hj2
          rw [if_pos (by omega), if_neg (by omega), hnext,
            List.getElem?_append_right (le_refl _)]
          simp
        · rw [if_neg (by omega), if_neg (by omega)]
          rw [show j - st.ops.length = (j - (st.ops.length + 1)) + 1 from by omega,
            List.getElem?_cons_succ]
    · show ((addOperations toOperator toPlacement intoQ
          (addOperation toOperator toPlacement intoQ st c1 c2 c3).1 calls).2.cons
            (addOperation toOperator toPlacement intoQ st c1 c2 c3).2)[j]? = _
      cases j with
      | zero =>
        simp only [List.getElem?_cons_zero, List.getElem?_cons_zero]
        show some (⟨"op_" ++ toString st.ops.length, intoQ c3⟩ : SymbolicHandle Q) = _
        simp
      | succ j =>
        rw [List.getElem?_cons_succ, List.getElem?_cons_succ, ih3 j, hlen,
          show st.ops.length + 1 + j = st.ops.length + (j + 1) from by omega]
    · show (addOperations toOperator toPlacement intoQ
          (addOperation toOperator toPlacement intoQ st c1 c2 c3).1 calls).1.replicatedKeys = _
      rw [ih4]
      rfl

theorem gatherOperands_isSome {V : Type} (env : List (String × V)) (names : List String)
    (h : ∀ nm ∈ names, (List.lookup nm env).isSome) :
    ∃ vs, gatherOperands env names = some vs := by
  induction names with
  | nil => exact ⟨[], rfl⟩
  | cons nm rest ih =>
    obtain ⟨v, hv⟩ := Option.isSome_iff_exists.mp (h nm (List.mem_cons_self _ _))
    obtain ⟨vs, hvs⟩ := ih (fun x hx => h x (List.mem_cons_of_mem nm hx))
    exact ⟨v :: vs, by simp [gatherOperands, hv, hvs]⟩

theorem lookup_cons_isSome {V : Type} (k nm : String) (v : V) (env : List (String × V))
    (h : (List.lookup nm env).isSome ∨ nm = k) :
    (List.lookup nm ((k, v) :: env)).isSome := by
  rcases h with h | rfl
  · simp only [List.lookup]
    cases hbk : (nm == k)
    · simpa using h
    · simp
  · simp [List.lookup]

theorem runOperations_register {O P K V : Type} (ops : List (Operation O P)) :
    ∀ (st : SymbolicSessionState O P K V) (env : List (String × SymbolicHandle P))
      (seen : List String),
      wellFormedFrom seen ops →
      (∀ nm ∈ seen, (List.lookup nm env).isSome) →
      ∃ stF, runOperations registerExec st env ops = .ok stF ∧
        stF.ops.map (fun o => o.name) =
          st.ops.map (fun o => o.name) ++
            (List.range' st.ops.length ops.length).map (fun n => "op_" ++ toString n) ∧
        stF.ops.map (fun o => o.kind) =
          st.ops.map (fun o => o.kind) ++ ops.map (fun o => o.kind) ∧
        stF.ops.map (fun o => o.placement) =
          st.ops.map (fun o => o.placement) ++ ops.map (fun o => o.placement) := by
  induction ops with
  | nil =>
    intro st env seen _ _
    exact ⟨st, rfl, by simp, by simp, by simp⟩
  | cons op rest ih =>
    intro st env seen hwf hinv
    obtain ⟨hin, hwfrest⟩ := hwf
    obtain ⟨vs, hvs⟩ := gatherOperands_isSome env op.inputs
      (fun nm hnm => hinv nm (hin nm hnm))
    have hstep :
        runOperations (registerExec (O := O) (P := P) (K := K) (V := V)) st env (op :: rest) =
          runOperations registerExec
            (addOperation id id id st op.kind (vs.map (fun h => h.op)) op.placement).1
            ((op.name,
              (addOperation id id id st op.kind (vs.map (fun h => h.op)) op.placement).2) :: env)
            rest := by
      simp [runOperations, hvs, registerExec]
    have hinv1 : ∀ nm ∈ op.name :: seen,
        (List.lookup nm
          ((op.name,
            (addOperation id id id st op.kind (vs.map (fun h => h.op)) op.placement).2) ::
              env)).isSome := by
      intro nm hnm
      rcases List.mem_cons.mp hnm with rfl | hnm
      · exact lookup_cons_isSome _ _ _ _ (Or.inr rfl)
      · exact lookup_cons_isSome _ _ _ _ (Or.inl (hinv nm hnm))
    obtain ⟨stF, hrun, hnm, hkd, hplc⟩ := ih
      (addOperation id id id st op.kind (vs.map (fun h => h.op)) op.placement).1
      ((op.name,
        (addOperation id id id st op.kind (vs.map (fun h => h.op)) op.placement).2) :: env)
      (op.name :: seen) hwfrest hinv1
    have hops1 : (addOperation id id id st op.kind (vs.map (fun h => h.op)) op.placement).1.ops =
        st.ops ++ [(⟨"op_" ++ toString st.ops.length, op.kind, vs.map (fun h => h.op),
          op.placement⟩ : Operation O P)] := rfl
    have hlen1 :
        (addOperation id id id st op.kind (vs.map (fun h => h.op)) op.placement).1.ops.length =
          st.ops.length + 1 := by
      rw [hops1]
      simp
    refine ⟨stF, hstep.trans hrun, ?_, ?_, ?_⟩
    · rw [hnm, hlen1, hops1, List.map_append, List.length_cons, List.range'_succ]
      simp
    · rw [hkd, hops1, List.map_append]
      simp
    · rw [hplc, hops1, List.map_append]
      simp

/-- Claim C2: a fresh symbolic session names the operation emitted by the
n-th `add_operation` call `op_<n>`, appends it in call order, and hands
back a handle carrying that name and the supplied placement, so after `k`
calls the emitted list is exactly `op_0 .. op_<k-1>`; and
`SymbolicExecutor::run_computation` (with kernels that register themselves)
returns a `Computation` holding exactly the emitted list: names
`op_0 .. op_<k-1>` in order with the source kinds and placements. -/
theorem symbolic_emission_order {O Oc P Pc Q K V : Type}
    (toOperator : O → Oc) (toPlacement : P → Pc) (intoQ : P → Q)
    (calls : List (O × List String × P)) (c : Computation Oc Pc)
    (hwf : wellFormedFrom [] c.operations) :
    ((addOperations (K := K) (V := V) toOperator toPlacement intoQ ⟨[], []⟩ calls).1.ops.length =
      calls.length) ∧
    (∀ j : Nat,
      (addOperations (K := K) (V := V) toOperator toPlacement intoQ ⟨[], []⟩ calls).1.ops[j]? =
        (calls[j]?).map (fun cc =>
          (⟨"op_" ++ toString j, toOperator cc.1, cc.2.1, toPlacement cc.2.2⟩ : Operation Oc Pc))) ∧
    (∀ j : Nat,
      (addOperations (K := K) (V := V) toOperator toPlacement intoQ ⟨[], []⟩ calls).2[j]? =
        (calls[j]?).map (fun cc =>
          (⟨"op_" ++ toString j, intoQ cc.2.2⟩ : SymbolicHandle Q))) ∧
    (∃ out : Computation Oc Pc,
      runComputation (registerExec (K := K) (V := V)) c = .ok out ∧
      out.operations.map (fun o => o.name) =
        (List.range c.operations.length).map (fun n => "op_" ++ toString n) ∧
      out.operations.map (fun o => o.kind) = c.operations.map (fun o => o.kind) ∧
      out.operations.map (fun o => o.placement) = c.operations.map (fun o => o.placement)) := by
  obtain ⟨h1, h2, h3, _⟩ := addOperations_spec toOperator toPlacement intoQ calls
    (⟨[], []⟩ : SymbolicSessionState Oc Pc K V)
  refine ⟨by simpa using h1, fun j => ?_, fun j => ?_, ?_⟩
  · have := h2 j
    simpa using this
  · have := h3 j
    simpa using this
  · obtain ⟨stF, hrun, hnm, hkd, hplc⟩ :=
      runOperations_register (K := K) (V := V) c.operations ⟨[], []⟩ [] [] hwf
        (by intro nm hnm; simp at hnm)
    refine ⟨⟨stF.ops⟩, ?_, ?_, by simpa using hkd, by simpa using hplc⟩
    · unfold runComputation
      rw [hrun]
    · simpa [List.range_eq_range'] using hnm

/-- Witness for C2: two concrete `add_operation` calls and the symbolic
lowering of a three-operation computation (input, add, output). -/
theorem symbolic_emission_order_witness :
    ((addOperations (K := Unit) (V := Unit) (id : String → String) (id : String → String)
        (id : String → String) ⟨[], []⟩
        [("constant", ([], "alice")), ("identity", (["op_0"], "bob"))]).1.ops.length = 2) ∧
    (∀ j : Nat,
      (addOperations (K := Unit) (V := Unit) (id : String → String) (id : String → String)
        (id : String → String) ⟨[], []⟩
        [("constant", ([], "alice")), ("identity", (["op_0"], "bob"))]).1.ops[j]? =
        (([("constant", ([], "alice")), ("identity", (["op_0"], "bob"))] :
          List (String × List String × String))[j]?).map (fun cc =>
          (⟨"op_" ++ toString j, id cc.1, cc.2.1, id cc.2.2⟩ : Operation String String))) ∧
    (∀ j : Nat,
      (addOperations (K := Unit) (V := Unit) (id : String → String) (id : String → String)
        (id : String → String) ⟨[], []⟩
        [("constant", ([], "alice")), ("identity", (["op_0"], "bob"))]).2[j]? =
        (([("constant", ([], "alice")), ("identity", (["op_0"], "bob"))] :
          List (String × List String × String))[j]?).map (fun cc =>
          (⟨"op_" ++ toString j, id cc.2.2⟩ : SymbolicHandle String))) ∧
    (∃ out : Computation String String,
      runComputation (registerExec (K := Unit) (V := Unit))
        (⟨[⟨"x", "input", [], "a"⟩, ⟨"y", "add", ["x", "x"], "a"⟩,
          ⟨"z", "output", ["y"], "a"⟩]⟩ : Computation String String) = .ok out ∧
      out.operations.map (fun o => o.name) =
        (List.range 3).map (fun n => "op_" ++ toString n) ∧
      out.operations.map (fun o => o.kind) = ["input", "add", "output"] ∧
      out.operations.map (fun o => o.placement) = ["a", "a", "a"]) := by
  have h := symbolic_emission_order (K := Unit) (V := Unit)
    (id : String → String) (id : String → String) (id : String → String)
    [("constant", ([], "alice")), ("identity", (["op_0"], "bob"))]
    (⟨[⟨"x", "input", [], "a"⟩, ⟨"y", "add", ["x", "x"], "a"⟩,
      ⟨"z", "output", ["y"], "a"⟩]⟩ : Computation String String)
    (by refine ⟨?_, ?_, ?_, trivial⟩ <;> simp [wellFormedFrom])
  simpa using h

/-! Fixed-point encode/decode (`RingFixedpointEncodeOp::float64_kernel`,
`RingFixedpointDecodeOp::float64_kernel`).

The kernels compute in `f64`.  The embedding represents every `f64` value
by the exact rational it denotes and models each rounding `f64` operation
explicitly: `fl` is correct rounding to 53 significant bits (round to
nearest, ties to even), which is the result of an IEEE-754 binary64 cast,
product or quotient of the exact operand values; subnormal and overflow
handling are omitted, as all magnitudes in the statements below sit far
inside the normal binary64 range.  The float-to-integer cast (`as i128`)
truncates toward zero and saturates.  The encode kernel performs one
rounding on `scaling_factor as f64` and one on the product
`&x.0 * (scaling_factor as f64)`; the decode kernel performs one on
`el as f64`, one on `scaling_factor as f64` and one on the quotient. -/

/-- Truncation toward zero of a rational. -/
def ratTrunc (q : ℚ) : Int :=
  if 0 ≤ q then ⌊q⌋ else ⌈q⌉

/-- The Rust cast `as i128` applied to a float: truncate toward zero,
saturating at the extremes of the signed 128-bit range. -/
def f64AsI128 (q : ℚ) : Int :=
  max (-(2 : Int) ^ 127) (min ((2 : Int) ^ 127 - 1) (ratTrunc q))

/-- Round a rational to the nearest integer, ties to even (the IEEE-754
default rounding used by all f64 arithmetic). -/
def rne (q : ℚ) : Int :=
  if q - ⌊q⌋ < 1 / 2 then ⌊q⌋
  else if 1 / 2 < q - ⌊q⌋ then ⌊q⌋ + 1
  else if ⌊q⌋ % 2 = 0 then ⌊q⌋ else ⌊q⌋ + 1

/-- Exponent of the unit in the last place of a binary64 float at the
magnitude of `q`. -/
def ulpExp (q : ℚ) : Int :=
  Int.log 2 |q| - 52

/-- Correctly rounded binary64 arithmetic: round the exact rational result
of an operation to 53 significant bits, nearest, ties to even. -/
def fl (q : ℚ) : ℚ :=
  if q = 0 then 0
  else ((rne (q / (2 : ℚ) ^ ulpExp q) : Int) : ℚ) * (2 : ℚ) ^ ulpExp q

/-- `RingFixedpointEncodeOp::float64_kernel`: the scaling factor
`u128::pow(base, exp)` (wrapping in release builds) is cast to f64 (one
rounding), each element is multiplied by it (one correctly rounded f64
product), and the result is cast `(el as i128) as u128` into the 128-bit
ring. -/
def ringFixedpointEncode128 (scalingBase scalingExp : Nat) (x : ℚ) : Nat :=
  ringWrap 128 (f64AsI128 (fl (x * fl (((scalingBase ^ scalingExp) % 2 ^ 128 : Nat) : ℚ))))

/-- `RingFixedpointDecodeOp::float64_kernel`: reinterpret each ring element
as `i128`, convert it to f64 (one rounding), and divide by
`scaling_factor as f64` (one rounding of the factor, one of the
quotient). -/
def ringFixedpointDecode128 (scalingBase scalingExp : Nat) (r : Nat) : ℚ :=
  fl (fl ((toSigned 128 r : Int) : ℚ) / fl (((scalingBase ^ scalingExp) % 2 ^ 128 : Nat) : ℚ))

/-- Modelled from the spec: the spec words say the encoding "computes
`round(x · base^exp)`" before the ring cast; this definition uses
round-to-nearest of the exact product where the source truncates toward
zero. -/
def specRoundEncode128 (scalingBase scalingExp : Nat) (x : ℚ) : Nat :=
  ringWrap 128 (round (x * (((scalingBase ^ scalingExp) % 2 ^ 128 : Nat) : ℚ)))

/-- Tensor form of the 64-bit-float to 128-bit-ring encode kernel. -/
def ringFixedpointEncode128T (scalingBase scalingExp : Nat) (xs : List ℚ) : List Nat :=
  xs.map (ringFixedpointEncode128 scalingBase scalingExp)

/-- Tensor form of the 128-bit-ring to 64-bit-float decode kernel. -/
def ringFixedpointDecode128T (scalingBase scalingExp : Nat) (rs : List Nat) : List ℚ :=
  rs.map (ringFixedpointDecode128 scalingBase scalingExp)

theorem rne_intCast (n : Int) : rne ((n : Int) : ℚ) = n := by
  unfold rne
  rw [Int.floor_intCast]
  norm_num

/-- Binary64 arithmetic is exact on values `m * 2^k` with `|m| < 2^53`:
`fl` fixes every such value. -/
theorem fl_fix (m k : Int) (hm : |m| < 2 ^ 53) :
    fl ((m : ℚ) * (2 : ℚ) ^ k) = (m : ℚ) * (2 : ℚ) ^ k := by
  by_cases hm0 : m = 0
  · subst hm0
    simp [fl]
  have hq0 : (m : ℚ) * (2 : ℚ) ^ k ≠ 0 := by
    apply mul_ne_zero
    · exact_mod_cast hm0
    · positivity
  have habs : |(m : ℚ) * (2 : ℚ) ^ k| = |(m : ℚ)| * (2 : ℚ) ^ k := by
    rw [abs_mul, abs_of_pos (show (0 : ℚ) < 2 ^ k by positivity)]
  have habspos : 0 < |(m : ℚ) * (2 : ℚ) ^ k| := abs_pos.mpr hq0
  have hup : |(m : ℚ) * (2 : ℚ) ^ k| < (2 : ℚ) ^ (k + 53) := by
    rw [habs, zpow_add₀ (by norm_num : (2 : ℚ) ≠ 0)]
    have hmq : |(m : ℚ)| < (2 : ℚ) ^ (53 : Int) := by
      rw [← Int.cast_abs]
      have hc : ((|m| : Int) : ℚ) < (((2 : Int) ^ 53 : Int) : ℚ) := by exact_mod_cast hm
      calc ((|m| : Int) : ℚ) < (((2 : Int) ^ 53 : Int) : ℚ) := hc
      _ = (2 : ℚ) ^ (53 : Int) := by push_cast; norm_num
    calc |(m : ℚ)| * (2 : ℚ) ^ k < (2 : ℚ) ^ (53 : Int) * (2 : ℚ) ^ k :=
          mul_lt_mul_of_pos_right hmq (by positivity)
    _ = (2 : ℚ) ^ k * (2 : ℚ) ^ (53 : Int) := mul_comm _ _
  have hlog_le : Int.log 2 |(m : ℚ) * (2 : ℚ) ^ k| ≤ k + 52 := by
    have hlow : (2 : ℚ) ^ (Int.log 2 |(m : ℚ) * (2 : ℚ) ^ k|) ≤ |(m : ℚ) * (2 : ℚ) ^ k| :=
      Int.zpow_log_le_self (by norm_num) habspos
    have hlt := (zpow_lt_zpow_iff_right₀ (show (1 : ℚ) < 2 by norm_num)).mp
      (lt_of_le_of_lt hlow hup)
    omega
  have huk : ulpExp ((m : ℚ) * (2 : ℚ) ^ k) ≤ k := by
    unfold ulpExp
    omega
  have hdk : (((k - ulpExp ((m : ℚ) * (2 : ℚ) ^ k)).toNat : Nat) : Int) =
      k - ulpExp ((m : ℚ) * (2 : ℚ) ^ k) := Int.toNat_of_nonneg (by omega)
  have hstep2 : ((m * 2 ^ ((k - ulpExp ((m : ℚ) * (2 : ℚ) ^ k)).toNat) : Int) : ℚ) =
      (m : ℚ) * (2 : ℚ) ^ ((((k - ulpExp ((m : ℚ) * (2 : ℚ) ^ k)).toNat : Nat)) : Int) := by
    push_cast
    rw [zpow_natCast]
  have hqu : ((m : ℚ) * (2 : ℚ) ^ k) / (2 : ℚ) ^ ulpExp ((m : ℚ) * (2 : ℚ) ^ k) =
      ((m * 2 ^ ((k - ulpExp ((m : ℚ) * (2 : ℚ) ^ k)).toNat) : Int) : ℚ) := by
    have hstep : ((m : ℚ) * (2 : ℚ) ^ k) / (2 : ℚ) ^ ulpExp ((m : ℚ) * (2 : ℚ) ^ k) =
        (m : ℚ) * (2 : ℚ) ^ (k - ulpExp ((m : ℚ) * (2 : ℚ) ^ k)) := by
      rw [mul_div_assoc, ← zpow_sub₀ (by norm_num : (2 : ℚ) ≠ 0)]
    rw [hstep, hstep2, hdk]
  have hflq : fl ((m : ℚ) * (2 : ℚ) ^ k) =
      ((rne (((m : ℚ) * (2 : ℚ) ^ k) / (2 : ℚ) ^ ulpExp ((m : ℚ) * (2 : ℚ) ^ k)) : Int) : ℚ) *
        (2 : ℚ) ^ ulpExp ((m : ℚ) * (2 : ℚ) ^ k) := by
    unfold fl
    rw [if_neg hq0]
  rw [hflq, hqu, rne_intCast, hstep2, hdk, mul_assoc,
    ← zpow_add₀ (by norm_num : (2 : ℚ) ≠ 0), sub_add_cancel]

theorem ratTrunc_close (q : ℚ) :
    q - 1 < ((ratTrunc q : Int) : ℚ) ∧ ((ratTrunc q : Int) : ℚ) < q + 1 ∧
    |((ratTrunc q : Int) : ℚ)| ≤ |q| := by
  unfold ratTrunc
  by_cases h : 0 ≤ q
  · rw [if_pos h]
    have h1 : ((⌊q⌋ : Int) : ℚ) ≤ q := Int.floor_le q
    have h2 : q < ((⌊q⌋ : Int) : ℚ) + 1 := Int.lt_floor_add_one q
    have h3 : (0 : Int) ≤ ⌊q⌋ := Int.floor_nonneg.mpr h
    have h3' : (0 : ℚ) ≤ ((⌊q⌋ : Int) : ℚ) := by exact_mod_cast h3
    rw [abs_of_nonneg h, abs_of_nonneg h3']
    exact ⟨by linarith, by linarith, h1⟩
  · rw [if_neg h]
    push_neg at h
    have h1 : q ≤ ((⌈q⌉ : Int) : ℚ) := Int.le_ceil q
    have h2 : ((⌈q⌉ : Int) : ℚ) < q + 1 := Int.ceil_lt_add_one q
    have h3 : ⌈q⌉ ≤ (0 : Int) := Int.ceil_le.mpr (by exact_mod_cast h.le)
    have h3' : ((⌈q⌉ : Int) : ℚ) ≤ 0 := by exact_mod_cast h3
    rw [abs_of_neg h, abs_of_nonpos h3']
    exact ⟨by linarith, h2, by linarith⟩

theorem f64AsI128_eq_ratTrunc (q : ℚ) (h : |q| < 2 ^ 127) :
    f64AsI128 q = ratTrunc q := by
  have hc := ratTrunc_close q
  have habs : |((ratTrunc q : Int) : ℚ)| < 2 ^ 127 := lt_of_le_of_lt hc.2.2 h
  obtain ⟨hlo, hhi⟩ := abs_lt.mp habs
  have hhiI : ratTrunc q < (2 : Int) ^ 127 := by exact_mod_cast (by push_cast; linarith :
    ((ratTrunc q : Int) : ℚ) < (((2 : Int) ^ 127 : Int) : ℚ))
  have hloI : -(2 : Int) ^ 127 < ratTrunc q := by exact_mod_cast (by push_cast; linarith :
    ((-(2 : Int) ^ 127 : Int) : ℚ) < ((ratTrunc q : Int) : ℚ))
  unfold f64AsI128
  rw [min_eq_right (by omega), max_eq_right (by omega)]

theorem fixedpoint_roundtrip_elem (b s e ip : Nat) (x : ℚ) (m k : Int)
    (hb : b = 2 ^ s) (hm : |m| < 2 ^ 53) (hrep : x = (m : ℚ) * (2 : ℚ) ^ k)
    (hx : |x| < 2 ^ ip) (hbound : 2 ^ ip * b ^ e ≤ 2 ^ 53) :
    |ringFixedpointDecode128 b e (ringFixedpointEncode128 b e x) - x| <
      (((b : Nat) : ℚ) ^ e)⁻¹ := by
  subst hb
  have hione : (1 : Nat) ≤ 2 ^ ip := Nat.one_le_two_pow
  have hF53 : (2 ^ s) ^ e ≤ 2 ^ 53 :=
    le_trans (Nat.le_mul_of_pos_left _ (by omega)) hbound
  have hFmod : ((2 ^ s) ^ e) % 2 ^ 128 = (2 ^ s) ^ e := by
    apply Nat.mod_eq_of_lt
    have h128 : (2 : Nat) ^ 53 < 2 ^ 128 := by norm_num
    omega
  set fQ : ℚ := (((2 ^ s) ^ e : Nat) : ℚ) with hfQ
  have hcastmod : ((((2 ^ s) ^ e) % 2 ^ 128 : Nat) : ℚ) = fQ := by
    rw [hFmod]
  have hfQzpow : fQ = (2 : ℚ) ^ ((s * e : Nat) : Int) := by
    rw [hfQ, ← pow_mul 2 s e, zpow_natCast]
    push_cast
    ring
  have hfQ1 : (1 : ℚ) ≤ fQ := by
    rw [hfQ]
    exact_mod_cast Nat.one_le_pow _ _ (by positivity)
  have hfQpos : (0 : ℚ) < fQ := by linarith
  have hflF : fl fQ = fQ := by
    have h := fl_fix 1 ((s * e : Nat) : Int) (by norm_num)
    rw [Int.cast_one, one_mul] at h
    rw [hfQzpow]
    exact h
  have hprod : x * fQ = (m : ℚ) * (2 : ℚ) ^ (k + ((s * e : Nat) : Int)) := by
    rw [hrep, hfQzpow, mul_assoc, ← zpow_add₀ (by norm_num : (2 : ℚ) ≠ 0)]
  have hflP : fl (x * fQ) = x * fQ := by
    rw [hprod]
    exact fl_fix m _ hm
  have hy53 : |x * fQ| < ((2 ^ 53 : Nat) : ℚ) := by
    rw [abs_mul, abs_of_pos hfQpos]
    have hstep : |x| * fQ < ((2 : ℚ) ^ ip) * fQ := mul_lt_mul_of_pos_right hx hfQpos
    have hcast2 : ((2 : ℚ)) ^ ip * fQ ≤ ((2 ^ 53 : Nat) : ℚ) := by
      rw [hfQ]
      exact_mod_cast hbound
    linarith
  have hy127 : |x * fQ| < 2 ^ 127 := by
    apply lt_of_lt_of_le hy53
    push_cast
    norm_num
  have henc : ringFixedpointEncode128 (2 ^ s) e x = ringWrap 128 (ratTrunc (x * fQ)) := by
    unfold ringFixedpointEncode128
    rw [hcastmod, hflF, hflP, f64AsI128_eq_ratTrunc _ hy127]
  have hc := ratTrunc_close (x * fQ)
  have ht53 : |((ratTrunc (x * fQ) : Int) : ℚ)| < ((2 ^ 53 : Nat) : ℚ) :=
    lt_of_le_of_lt hc.2.2 hy53
  have ht53I : |ratTrunc (x * fQ)| < (2 : Int) ^ 53 := by
    have h1 : ((|ratTrunc (x * fQ)| : Int) : ℚ) < ((2 ^ 53 : Nat) : ℚ) := by
      rw [Int.cast_abs]
      exact ht53
    have h2 : ((2 ^ 53 : Nat) : ℚ) = (((2 : Int) ^ 53 : Int) : ℚ) := by
      push_cast
      norm_num
    rw [h2] at h1
    exact_mod_cast h1
  obtain ⟨hta, htb⟩ := abs_lt.mp ht53I
  have h53_127 : (2 : Int) ^ 53 ≤ (2 : Int) ^ 127 := by norm_num
  have hback : toSigned 128 (ringWrap 128 (ratTrunc (x * fQ))) = ratTrunc (x * fQ) := by
    apply toSigned_ringWrap_self 128 (by norm_num)
    · norm_num
      omega
    · norm_num
      omega
  have hfltQ : fl ((ratTrunc (x * fQ) : Int) : ℚ) = ((ratTrunc (x * fQ) : Int) : ℚ) := by
    have h := fl_fix (ratTrunc (x * fQ)) 0 ht53I
    rw [zpow_zero, mul_one] at h
    exact h
  have hflQuot : fl (((ratTrunc (x * fQ) : Int) : ℚ) / fQ) =
      ((ratTrunc (x * fQ) : Int) : ℚ) / fQ := by
    have hquot : ((ratTrunc (x * fQ) : Int) : ℚ) / fQ =
        ((ratTrunc (x * fQ) : Int) : ℚ) * (2 : ℚ) ^ (-((s * e : Nat) : Int)) := by
      rw [hfQzpow, div_eq_mul_inv, ← zpow_neg]
    rw [hquot]
    exact fl_fix _ _ ht53I
  have hdec : ringFixedpointDecode128 (2 ^ s) e (ringFixedpointEncode128 (2 ^ s) e x) =
      ((ratTrunc (x * fQ) : Int) : ℚ) / fQ := by
    unfold ringFixedpointDecode128
    rw [henc, hcastmod, hflF, hback, hfltQ, hflQuot]
  rw [hdec]
  have hxeq : x = (x * fQ) / fQ := by
    field_simp
  rw [show ((ratTrunc (x * fQ) : Int) : ℚ) / fQ - x =
      ((ratTrunc (x * fQ) : Int) : ℚ) / fQ - (x * fQ) / fQ from by rw [← hxeq]]
  rw [div_sub_div_same, abs_div, abs_of_pos hfQpos]
  have hgoalf : (((2 ^ s : Nat) : ℚ) ^ e)⁻¹ = 1 / fQ := by
    rw [one_div, hfQ]
    congr 1
    push_cast
    ring
  rw [hgoalf, one_div, ← one_div]
  apply (div_lt_div_iff_of_pos_right hfQpos).mpr
  rw [abs_sub_lt_iff]
  obtain ⟨hc1, hc2, _⟩ := hc
  constructor <;> linarith

/-- Counterexample to C4 as stated: its "encoding computes
`round(x · base^exp)`" clause fails at `x = 1/2`, `base = 2`, `exp = 0`.
There every f64 operation of the kernel is exact (`1/2` and the factor `1`
are representable, the product is exact), and the kernel truncates `1/2`
to the ring value `0` while the spec's rounding yields the ring value
`1`. -/
theorem fixedpoint_encode_not_round_counterexample :
    ringFixedpointEncode128 2 0 (1 / 2) = 0 ∧
    specRoundEncode128 2 0 (1 / 2) = 1 ∧
    ringFixedpointEncode128 2 0 (1 / 2) ≠ specRoundEncode128 2 0 (1 / 2) := by
  have hmod : ((2 ^ 0 % 2 ^ 128 : Nat) : ℚ) = 1 := by norm_num
  have hfl1 : fl (1 : ℚ) = 1 := by
    have h := fl_fix 1 0 (by norm_num)
    rw [Int.cast_one, zpow_zero, mul_one] at h
    exact h
  have hflh : fl ((1 : ℚ) / 2) = 1 / 2 := by
    have h := fl_fix 1 (-1) (by norm_num)
    rw [Int.cast_one, one_mul] at h
    have hz : (2 : ℚ) ^ (-1 : Int) = 1 / 2 := by
      rw [zpow_neg, zpow_one]
      norm_num
    rw [hz] at h
    exact h
  have h1 : ringFixedpointEncode128 2 0 (1 / 2) = 0 := by
    unfold ringFixedpointEncode128
    rw [hmod, hfl1, mul_one, hflh]
    have htr : ratTrunc ((1 : ℚ) / 2) = 0 := by
      unfold ratTrunc
      norm_num
    unfold f64AsI128
    rw [htr]
    norm_num [ringWrap]
  have h2 : specRoundEncode128 2 0 (1 / 2) = 1 := by
    unfold specRoundEncode128
    rw [hmod, mul_one]
    have hr : round ((1 : ℚ) / 2) = 1 := by
      norm_num [round_eq]
    rw [hr]
    norm_num [ringWrap]
  exact ⟨h1, h2, by omega⟩

/-- Claim C4, amended: for power-of-two scaling (`base = 2^s`) with
`2^ip · base^exp ≤ 2^53` — the regime in which every f64 operation of the
kernels (factor cast, element product, int-to-float conversion, quotient)
is value-preserving, which the proof establishes through the rounding
model `fl` — decoding the encoding of a float tensor of representable
elements with `|x| < 2^ip` is elementwise within `base^(-exp)` of the
input; and the encoding truncates `x · base^exp` toward zero (the Rust
float-to-int cast) rather than rounding to nearest.  Outside this regime
the rounding of the f64 product and quotient can exceed the `base^(-exp)`
bound, so no unconditional bound holds. -/
theorem fixedpoint_roundtrip (b s e ip : Nat) (xs : List ℚ) (hb : b = 2 ^ s)
    (hrep : ∀ x ∈ xs, ∃ m k : Int, |m| < 2 ^ 53 ∧ x = (m : ℚ) * (2 : ℚ) ^ k)
    (hx : ∀ x ∈ xs, |x| < 2 ^ ip)
    (hbound : 2 ^ ip * b ^ e ≤ 2 ^ 53) :
    (ringFixedpointDecode128T b e (ringFixedpointEncode128T b e xs)).length = xs.length ∧
    ∀ j, j < xs.length →
      |(ringFixedpointDecode128T b e (ringFixedpointEncode128T b e xs)).getD j 0 -
        xs.getD j 0| < (((b : Nat) : ℚ) ^ e)⁻¹ := by
  unfold ringFixedpointDecode128T ringFixedpointEncode128T
  rw [List.map_map]
  refine ⟨by simp, fun j hj => ?_⟩
  rw [getD_map' (ringFixedpointDecode128 b e ∘ ringFixedpointEncode128 b e) 0 0 xs j hj]
  have hmem : xs.getD j 0 ∈ xs := by
    rw [List.getD_eq_getElem xs 0 hj]
    exact List.getElem_mem hj
  obtain ⟨m, k, hm, hxs⟩ := hrep _ hmem
  exact fixedpoint_roundtrip_elem b s e ip (xs.getD j 0) m k hb hm hxs (hx _ hmem) hbound

/-- Witness for the amended C4 at `base = 2 = 2^1`, `exp = 1`, `ip = 1`,
tensor `[1/2, -3/4]` (both elements representable binary64 values). -/
theorem fixedpoint_roundtrip_witness :
    (ringFixedpointDecode128T 2 1 (ringFixedpointEncode128T 2 1 [1/2, -3/4])).length =
      ([1/2, -3/4] : List ℚ).length ∧
    ∀ j, j < ([1/2, -3/4] : List ℚ).length →
      |(ringFixedpointDecode128T 2 1 (ringFixedpointEncode128T 2 1 [1/2, -3/4])).getD j 0 -
        ([1/2, -3/4] : List ℚ).getD j 0| < (((2 : Nat) : ℚ) ^ 1)⁻¹ :=
  fixedpoint_roundtrip 2 1 1 1 [1/2, -3/4] (by norm_num)
    (by
      intro x hxm
      simp only [List.mem_cons, List.mem_singleton] at hxm
      rcases hxm with rfl | rfl | hxm
      · refine ⟨1, -1, by norm_num, ?_⟩
        rw [Int.cast_one, one_mul, zpow_neg, zpow_one]
        norm_num
      · refine ⟨-3, -2, by norm_num, ?_⟩
        have hz : (2 : ℚ) ^ (-2 : Int) = 1 / 4 := by
          rw [zpow_neg]
          norm_num
        rw [hz]
        push_cast
        norm_num
      · simp at hxm)
    (by
      intro x hxm
      simp only [List.mem_cons, List.mem_singleton] at hxm
      rcases hxm with rfl | rfl | hxm
      · rw [abs_of_pos (by norm_num)]
        norm_num
      · rw [abs_of_neg (by norm_num)]
        norm_num
      · simp at hxm)
    (by norm_num)

end Moose
